import Mathlib

/-!
Shallow embedding of the binary prefix-system bandwidth parser and formatter
from src/src/binary_system.rs of the human-bandwidth repository.

The parser and the two formatting routines in src are translated directly.
The surrounding crate gives a few items that src only uses (the cursor type,
the error enum, the item helper, the fraction-digit cap) and the external
magnitude type from the bandwidth crate; those are modelled from the spec and
carry a doc comment saying so.

Offsets: the Rust cursor tracks byte offsets into the UTF-8 source. The
embedding walks a list of characters and advances the offset by the UTF-8
byte length of each character, so offsets agree with the Rust ones on every
input. All digits, unit letters and separators of the grammar are ASCII.

Machine integers are modelled as Nat with an explicit mod at each point where
the Rust code narrows or could wrap; checked operations compare against the
width bound and return the overflow error exactly where the source does.
-/

namespace HumanBandwidth

/-- Error values returned by the parser. The enum itself lives in the crate
root, outside src. Constructors and payloads follow the spec error surface
(section 7) together with the constructions that appear in src. The
UnitNeeded variant is modelled from the spec: the spec lists it as a
separate failure kind carrying an offset and an example value; the code in
src never constructs it, which is what claim C8 is about. -/
inductive Error where
  | Empty : Error
  | InvalidCharacter : ℕ → Error
  | UnitNeeded : ℕ → ℕ → Error
  | UnknownBinaryUnit : (start stop : ℕ) → (unit : String) → (value : ℕ) → Error
  | NumberOverflow : Error
  deriving DecidableEq

/-- Modelled from the spec: the external magnitude type of the bandwidth
crate (not under src). A nonnegative rate held exactly as a pair of whole
gigabits per second (unsigned 64 bit) and a sub-gigabit remainder in bits
per second (unsigned 32 bit, kept below one billion). -/
structure Bandwidth where
  gbps : ℕ
  bps : ℕ
  deriving DecidableEq

/-- Modelled from the spec: construction from a gigabit count and a
sub-gigabit remainder; a remainder of a billion or more carries over. -/
def Bandwidth.new (g b : ℕ) : Bandwidth :=
  ⟨g + b / 1000000000, b % 1000000000⟩

/-- The exact value of a magnitude in bits per second. -/
def Bandwidth.totalBits (bw : Bandwidth) : ℕ :=
  bw.gbps * 1000000000 + bw.bps

/-- The magnitude holding a given number of bits per second. -/
def Bandwidth.ofBits (t : ℕ) : Bandwidth :=
  ⟨t / 1000000000, t % 1000000000⟩

/-- Modelled from the spec: folding a span into the running total is a
checked add across the whole-magnitude arithmetic and any failure surfaces
as the numeric overflow error (spec section 4.1, step 4). -/
def Bandwidth.checkedAdd (a b : Bandwidth) : Except Error Bandwidth :=
  let bsum := a.bps + b.bps
  let g := a.gbps + b.gbps + bsum / 1000000000
  if g < 2 ^ 64 then .ok ⟨g, bsum % 1000000000⟩ else .error .NumberOverflow

/-- Modelled from the spec: the module-wide cap on significant fractional
digits (the constant lives in the crate root, outside src). The spec states
only that a fixed maximum count of fractional digits is kept and that later
digits are silently discarded. The tests in src force the cap to be at
least 11; we fix 18, which also keeps the fraction accumulator clear of the
unsigned 64 bit bound, as those tests assume. -/
def FRACTION_PART_LIMIT : ℕ := 18

/-- The Rust pattern 0..=9 on a character, by scalar value. -/
abbrev isDigitChar (c : Char) : Prop := 48 ≤ c.toNat ∧ c.toNat ≤ 57

/-- The Rust pattern for unit characters: ascii letters and the slash. -/
abbrev isUnitChar (c : Char) : Prop :=
  (97 ≤ c.toNat ∧ c.toNat ≤ 122) ∨ (65 ≤ c.toNat ∧ c.toNat ≤ 90) ∨ c.toNat = 47

/-- The Rust char::is_whitespace predicate: the Unicode White_Space set. -/
abbrev rustWhitespace (c : Char) : Prop :=
  c.toNat = 32 ∨ (9 ≤ c.toNat ∧ c.toNat ≤ 13) ∨ c.toNat = 133 ∨ c.toNat = 160 ∨
  c.toNat = 5760 ∨ (8192 ≤ c.toNat ∧ c.toNat ≤ 8202) ∨ c.toNat = 8232 ∨
  c.toNat = 8233 ∨ c.toNat = 8239 ∨ c.toNat = 8287 ∨ c.toNat = 12288

/-- The numeric value of a digit character, as the Rust cast chain computes it. -/
def dval (c : Char) : ℕ := c.toNat - 48

/-- UTF-8 byte length of a character; the Rust cursor advances offsets by it. -/
def utf8Len (c : Char) : ℕ :=
  if c.toNat < 128 then 1 else if c.toNat < 2048 then 2
  else if c.toNat < 65536 then 3 else 4

/-- The closed alias table of parse_binary_unit in src: every textual unit
spelling paired with its power-of-1024 level, in source order. -/
def aliasTable : List (String × ℕ) :=
  [("Bps", 0), ("Byte/s", 0), ("B/s", 0), ("ops", 0), ("o/s", 0),
   ("kiBps", 1), ("KiBps", 1), ("kiByte/s", 1), ("KiByte/s", 1), ("kiB/s", 1),
   ("KiB/s", 1), ("kiops", 1), ("Kiops", 1), ("kio/s", 1), ("Kio/s", 1),
   ("MiBps", 2), ("miBps", 2), ("MiByte/s", 2), ("miByte/s", 2), ("MiB/s", 2),
   ("miB/s", 2), ("Miops", 2), ("miops", 2), ("Mio/s", 2), ("mio/s", 2),
   ("GiBps", 3), ("giBps", 3), ("GiByte/s", 3), ("giByte/s", 3), ("GiB/s", 3),
   ("giB/s", 3), ("Giops", 3), ("giops", 3), ("Gio/s", 3), ("gio/s", 3),
   ("TiBps", 4), ("tiBps", 4), ("TiByte/s", 4), ("tiByte/s", 4), ("TiB/s", 4),
   ("tiB/s", 4), ("Tiops", 4), ("tiops", 4), ("Tio/s", 4), ("tio/s", 4)]

/-- First-match lookup over the table, mirroring the Rust string match. -/
def lookupLevel : List (String × ℕ) → String → Option ℕ
  | [], _ => none
  | p :: t, u => if p.1 = u then some p.2 else lookupLevel t u

/-- The unit level a spelling resolves to, if any. -/
def aliasLevel (u : String) : Option ℕ := lookupLevel aliasTable u

/-- parse_binary_fraction from src: convert the fractional accumulator to a
whole count of bytes per second, rounding to the nearest with ties away
from zero. The shift is the u128 checked_shl (which fails only on a shift
amount of 128 or more), the division result is narrowed to u64. -/
def parse_binary_fraction (fraction fraction_cnt unit : ℕ) : Except Error ℕ :=
  let rounding := 10 ^ fraction_cnt / 2
  if 128 ≤ 10 * unit then .error .NumberOverflow
  else .ok ((fraction * 2 ^ (10 * unit) % 2 ^ 128 + rounding) / 10 ^ fraction_cnt % 2 ^ 64)

/-- parse_binary_unit from src: resolve the unit substring, convert the span
to bits per second in checked u128 arithmetic, split into the gigabit pair
and fold it into the running total. -/
def parse_binary_unit (cur : Bandwidth) (n fraction fraction_cnt start stop : ℕ)
    (unitStr : String) : Except Error Bandwidth :=
  match aliasLevel unitStr with
  | none => .error (.UnknownBinaryUnit start stop unitStr n)
  | some unit =>
    if 128 ≤ 10 * unit then .error .NumberOverflow
    else
      match parse_binary_fraction fraction fraction_cnt unit with
      | .error e => .error e
      | .ok frac =>
        let shifted := n * 2 ^ (10 * unit) % 2 ^ 128
        if shifted + frac < 2 ^ 128 then
          if (shifted + frac) * 8 < 2 ^ 128 then
            let bits := (shifted + frac) * 8
            let g := bits / 1000000000
            if 2 ^ 64 - 1 < g then .error .NumberOverflow
            else cur.checkedAdd (Bandwidth.new g (bits % 1000000000 % 2 ^ 32))
          else .error .NumberOverflow
        else .error .NumberOverflow

/-- The cursor state of parse_binary in src, flattened to one tag per scanning
loop: start covers parse_first_char (the flag telling the all-whitespace case
apart: at the very beginning it is the empty error, later it ends the parse),
num is the digit loop with its accumulators and the decimal-point flag, uscan
is the unit loop carrying the accumulated unit substring and its start offset. -/
inductive Mode where
  | start : Bool → Mode
  | num : (n fraction fraction_cnt : ℕ) → (decimal : Bool) → Mode
  | uscan : (n fraction fraction_cnt start : ℕ) → (acc : List Char) → Mode

/-- parse_binary from src, one character per step. Each arm mirrors one match
arm of the corresponding Rust loop, in source order; end of input triggers the
same final parse_binary_unit calls the nested loops perform. The start mode is
modelled from the spec where parse_first_char lives outside src: skip
whitespace, accept a digit, reject anything else at its offset. -/
def run : List Char → ℕ → Mode → Bandwidth → Except Error Bandwidth
  | [], _, .start true, _ => .error .Empty
  | [], _, .start false, cur => .ok cur
  | [], pos, .num n f fc _, cur => parse_binary_unit cur n f fc pos pos ⟨[]⟩
  | [], pos, .uscan n f fc st acc, cur => parse_binary_unit cur n f fc st pos ⟨acc⟩
  | c :: cs, pos, .start b, cur =>
    if isDigitChar c then run cs (pos + 1) (.num (dval c) 0 0 false) cur
    else if rustWhitespace c then run cs (pos + utf8Len c) (.start b) cur
    else .error (.InvalidCharacter pos)
  | c :: cs, pos, .num n f fc dec, cur =>
    if isDigitChar c then
      if dec then
        if FRACTION_PART_LIMIT ≤ fc then run cs (pos + 1) (.num n f fc dec) cur
        else if f * 10 + dval c < 2 ^ 64 then
          run cs (pos + 1) (.num n (f * 10 + dval c) (fc + 1) dec) cur
        else .error .NumberOverflow
      else
        if n * 10 + dval c < 2 ^ 64 then
          run cs (pos + 1) (.num (n * 10 + dval c) f fc dec) cur
        else .error .NumberOverflow
    else if rustWhitespace c then run cs (pos + utf8Len c) (.num n f fc dec) cur
    else if c.toNat = 95 then run cs (pos + 1) (.num n f fc dec) cur
    else if c.toNat = 46 then
      if dec then .error (.InvalidCharacter pos)
      else run cs (pos + 1) (.num n f fc true) cur
    else if isUnitChar c then run cs (pos + 1) (.uscan n f fc pos [c]) cur
    else .error (.InvalidCharacter pos)
  | c :: cs, pos, .uscan n f fc st acc, cur =>
    if isDigitChar c then
      match parse_binary_unit cur n f fc st pos ⟨acc⟩ with
      | .error e => .error e
      | .ok cur2 => run cs (pos + 1) (.num (dval c) 0 0 false) cur2
    else if rustWhitespace c then
      match parse_binary_unit cur n f fc st pos ⟨acc⟩ with
      | .error e => .error e
      | .ok cur2 => run cs (pos + utf8Len c) (.start false) cur2
    else if isUnitChar c then run cs (pos + 1) (.uscan n f fc st (acc ++ [c])) cur
    else .error (.InvalidCharacter pos)

/-- parse_binary_bandwidth from src: run the cursor over the whole input
starting in first-character mode with an empty running total. -/
def parse_binary_bandwidth (s : String) : Except Error Bandwidth :=
  run s.data 0 (.start true) ⟨0, 0⟩

/-- The u64 reconstruction of total bits per second at the top of both
fmt_integer and fmt_decimal in src. The Rust code computes it in plain u64
arithmetic: when the mathematical value reaches 2 to the 64 it wraps in
release builds and aborts in debug builds; the embedding keeps the wrapped
value. -/
def fmt_total (g b : ℕ) : ℕ := (g * 1000000000 + b) % 2 ^ 64

/-- The division and modulo chain of both formatters, smallest component
first, matching the values array of fmt_decimal: bytes, kibi, mebi, gibi,
tebi parts of a whole byte count. Each quotient is below 2 to the 32, so
the u32 narrowing casts in src are lossless and are not repeated here. -/
def byteComponents (b : ℕ) : List ℕ :=
  [b % 1024 ^ 4 % 1024 ^ 3 % 1024 ^ 2 % 1024,
   b % 1024 ^ 4 % 1024 ^ 3 % 1024 ^ 2 / 1024,
   b % 1024 ^ 4 % 1024 ^ 3 / 1024 ^ 2,
   b % 1024 ^ 4 / 1024 ^ 3,
   b / 1024 ^ 4]

/-- The largest-nonzero-unit selection of fmt_decimal. -/
def largestIndex (v : List ℕ) : ℕ :=
  if 0 < v.getD 4 0 then 4 else if 0 < v.getD 3 0 then 3
  else if 0 < v.getD 2 0 then 2 else if 0 < v.getD 1 0 then 1 else 0

/-- The while loop of fmt_decimal reassembling the components below the
anchor as a base-1024 positional number, counting the index down. -/
def subRemainder (v : List ℕ) : ℕ → ℕ → ℕ
  | 0, acc => acc
  | i + 1, acc => subRemainder v i (acc * 1024 + v.getD i 0)

/-- The base-1024 to base-1000 rescaling of fmt_decimal: multiply by 1000 to
the index, shift right by 10 times the index with the precomputed half-way
rounding term, then undo the round-up in the exact tie case when the
retained value is odd. -/
def decRescale (r index : ℕ) : ℕ :=
  let m := r * 1000 ^ index
  let rounding := if index = 0 then 0 else 2 ^ (index * 10 - 1)
  let loss := m % 2 ^ (index * 10)
  let q := (m + rounding) / 2 ^ (index * 10)
  if loss = rounding ∧ q % 2 = 1 then q - 1 else q

/-- The digit-by-digit precision loop of fmt_decimal: drop the last decimal
digit, update the running rounding direction, and carry as described in the
source match on the dropped digit. The second component is the zeros
counter after the loop. -/
def roundPass (p : ℕ) : ℕ → ℤ → ℕ → ℕ × ℕ
  | r, _, 0 => (r, 0)
  | r, d, z + 1 =>
    if p < z + 1 then
      let loss := r % 10
      let r2 := r / 10
      if loss = 0 then roundPass p r2 d z
      else if loss < 5 then roundPass p r2 (-1) z
      else if loss = 5 then
        if d = 0 then
          if r2 % 2 = 1 then roundPass p (r2 + 1) 1 z else roundPass p r2 (-1) z
        else if d = -1 then roundPass p (r2 + 1) 1 z
        else roundPass p r2 (-1) z
      else roundPass p (r2 + 1) 1 z
    else (r, z + 1)

/-- The trailing-zero stripping loop of the no-precision branch of
fmt_decimal. The Rust loop runs while the remainder ends in zero; a nonzero
remainder below 10 to the zeros makes the zeros counter a strict bound on
the iteration count, which the recursion makes explicit. -/
def stripZeros : ℕ → ℕ → ℕ × ℕ
  | r, 0 => (r, 0)
  | r, z + 1 => if r % 10 = 0 then stripZeros (r / 10) z else (r, z + 1)

/-- Zero padding to a minimum width, as the Rust format specifier 0zeros$
pads the remainder. -/
def padZeros (r z : ℕ) : String :=
  String.mk (List.replicate (z - (toString r).length) '0') ++ toString r

/-- Display of LargestBinaryUnit in src. -/
def unitName : ℕ → String
  | 0 => "B/s" | 1 => "KiB/s" | 2 => "MiB/s" | 3 => "GiB/s" | _ => "TiB/s"

/-- The final writes of fmt_decimal: the integer component, then the decimal
point and the padded remainder when either the zeros counter or the
remainder is nonzero, then the anchor unit. -/
def renderDecimal (value r z index : ℕ) : String :=
  toString value ++ (if z ≠ 0 ∨ r ≠ 0 then "." ++ padZeros r z else "") ++ unitName index

/-- fmt_decimal from src: the single-largest-unit decimal rendering with an
optional requested precision (the formatter precision field). -/
def fmt_decimal (bw : Bandwidth) (precision : Option ℕ) : String :=
  if bw.gbps = 0 ∧ bw.bps = 0 then "0B/s"
  else
    let total := (fmt_total bw.gbps bw.bps + 4) % 2 ^ 64 / 8
    let v := byteComponents total
    let index := largestIndex v
    let value := v.getD index 0
    let r0 := decRescale (subRemainder v index 0) index
    let zeros := index * 3
    match precision with
    | some p =>
      let rz := roundPass p r0 0 zeros
      if p = 0 ∧ 0 < rz.1 then renderDecimal (value + rz.1 % 2 ^ 32) 0 rz.2 index
      else renderDecimal value rz.1 rz.2 index
    | none =>
      if r0 ≠ 0 then
        let rz := stripZeros r0 zeros
        renderDecimal value rz.1 rz.2 index
      else renderDecimal value 0 0 index

/-- Modelled from the spec: the item helper of the crate root used by
fmt_integer; prints every nonzero component, largest unit first, separated
by a single space, each followed by its unit suffix. -/
def itemsConcat : List (ℕ × String) → Bool → String
  | [], _ => ""
  | (v, name) :: t, started =>
    if 0 < v then ((if started then " " else "") ++ toString v ++ name) ++ itemsConcat t true
    else itemsConcat t started

/-- fmt_integer from src: the itemized rendering of all nonzero components. -/
def fmt_integer (bw : Bandwidth) : String :=
  if bw.gbps = 0 ∧ bw.bps = 0 then "0B/s"
  else
    let total := (fmt_total bw.gbps bw.bps + 4) % 2 ^ 64 / 8
    let v := byteComponents total
    itemsConcat [(v.getD 4 0, "TiB/s"), (v.getD 3 0, "GiB/s"), (v.getD 2 0, "MiB/s"),
                 (v.getD 1 0, "KiB/s"), (v.getD 0 0, "B/s")] false

/-- Rounding a quotient to the nearest integer with ties to even, the
mathematical specification the rescaling and precision passes are checked
against. -/
def roundHalfEven (m d : ℕ) : ℕ :=
  if d < 2 * (m % d) ∨ (2 * (m % d) = d ∧ m / d % 2 = 1) then m / d + 1 else m / d

/-- Digit accumulation: the value obtained by folding decimal digits onto an
initial accumulator, as the digit loop does. -/
def foldDigits (n : ℕ) (ds : List Char) : ℕ :=
  ds.foldl (fun a c => a * 10 + dval c) n

/-- The numeric value of a digit string. -/
def digitsVal (ds : List Char) : ℕ := foldDigits 0 ds

/-- One fractional digit step of the digit loop: digits past the cap are
discarded, earlier ones are folded in and counted. -/
def fracStep (s : ℕ × ℕ) (c : Char) : ℕ × ℕ :=
  if FRACTION_PART_LIMIT ≤ s.2 then s else (s.1 * 10 + dval c, s.2 + 1)

/-- Folding a whole fractional digit string. -/
def fracFold (s : ℕ × ℕ) (ds : List Char) : ℕ × ℕ := ds.foldl fracStep s

/-- The optional fractional part of a span, with its leading decimal point. -/
def fracPart : Option (List Char) → List Char
  | none => []
  | some fs => '.' :: fs

/-- The character sequence of one rate-span: integer digits, an optional
decimal point with fraction digits, and a unit spelling. -/
def spanChars (ds : List Char) (fr : Option (List Char)) (u : String) : List Char :=
  ds ++ fracPart fr ++ u.data

lemma String.mk_data (u : String) : String.mk u.data = u := rfl

lemma ws_not_digit {c : Char} (h : rustWhitespace c) : ¬ isDigitChar c := by
  rintro ⟨h1, h2⟩
  rcases h with h | h | h | h | h | h | h | h | h | h | h <;> omega

lemma unit_not_digit {c : Char} (h : isUnitChar c) : ¬ isDigitChar c := by
  rintro ⟨h1, h2⟩
  rcases h with ⟨ha, hb⟩ | ⟨ha, hb⟩ | ha <;> omega

lemma unit_not_ws {c : Char} (h : isUnitChar c) : ¬ rustWhitespace c := by
  intro hw
  rcases h with ⟨ha, hb⟩ | ⟨ha, hb⟩ | ha <;>
    rcases hw with h | h | h | h | h | h | h | h | h | h | h <;> omega

lemma unit_not_us {c : Char} (h : isUnitChar c) : ¬ c.toNat = 95 := by
  rcases h with ⟨ha, hb⟩ | ⟨ha, hb⟩ | ha <;> omega

lemma unit_not_dot {c : Char} (h : isUnitChar c) : ¬ c.toNat = 46 := by
  rcases h with ⟨ha, hb⟩ | ⟨ha, hb⟩ | ha <;> omega

lemma us_not_digit {c : Char} (h : c.toNat = 95) : ¬ isDigitChar c := by
  rintro ⟨h1, h2⟩; omega

lemma us_not_ws {c : Char} (h : c.toNat = 95) : ¬ rustWhitespace c := by
  intro hw
  rcases hw with h' | h' | h' | h' | h' | h' | h' | h' | h' | h' | h' <;> omega

lemma dot_not_digit {c : Char} (h : c.toNat = 46) : ¬ isDigitChar c := by
  rintro ⟨h1, h2⟩; omega

lemma dot_not_ws {c : Char} (h : c.toNat = 46) : ¬ rustWhitespace c := by
  intro hw
  rcases hw with h' | h' | h' | h' | h' | h' | h' | h' | h' | h' | h' <;> omega

lemma digit_dval_le {c : Char} (h : isDigitChar c) : dval c ≤ 9 := by
  obtain ⟨h1, h2⟩ := h
  unfold dval
  omega

/- Single-step unfoldings of the run machine, one per match arm. -/

lemma run_step_start_digit {c : Char} (h : isDigitChar c) (cs pos b cur) :
    run (c :: cs) pos (.start b) cur = run cs (pos + 1) (.num (dval c) 0 0 false) cur := by
  conv_lhs => unfold run
  rw [if_pos h]

lemma run_step_start_ws {c : Char} (h : rustWhitespace c) (cs pos b cur) :
    run (c :: cs) pos (.start b) cur = run cs (pos + utf8Len c) (.start b) cur := by
  conv_lhs => unfold run
  rw [if_neg (ws_not_digit h), if_pos h]

lemma run_step_num_digit_int {c : Char} (h : isDigitChar c) (cs pos n f fc cur) :
    run (c :: cs) pos (.num n f fc false) cur =
      if n * 10 + dval c < 2 ^ 64 then
        run cs (pos + 1) (.num (n * 10 + dval c) f fc false) cur
      else .error .NumberOverflow := by
  conv_lhs => unfold run
  rw [if_pos h, if_neg Bool.false_ne_true]

lemma run_step_num_digit_cap {c : Char} {fc : ℕ} (h : isDigitChar c)
    (hcap : FRACTION_PART_LIMIT ≤ fc) (cs pos n f cur) :
    run (c :: cs) pos (.num n f fc true) cur = run cs (pos + 1) (.num n f fc true) cur := by
  conv_lhs => unfold run
  rw [if_pos h, if_pos rfl, if_pos hcap]

lemma run_step_num_digit_frac {c : Char} {f fc : ℕ} (h : isDigitChar c)
    (hcap : fc < FRACTION_PART_LIMIT) (hov : f * 10 + dval c < 2 ^ 64) (cs pos n cur) :
    run (c :: cs) pos (.num n f fc true) cur =
      run cs (pos + 1) (.num n (f * 10 + dval c) (fc + 1) true) cur := by
  conv_lhs => unfold run
  rw [if_pos h, if_pos rfl, if_neg (by omega : ¬ FRACTION_PART_LIMIT ≤ fc), if_pos hov]

lemma run_step_num_ws {c : Char} (h : rustWhitespace c) (cs pos n f fc dec cur) :
    run (c :: cs) pos (.num n f fc dec) cur =
      run cs (pos + utf8Len c) (.num n f fc dec) cur := by
  conv_lhs => unfold run
  rw [if_neg (ws_not_digit h), if_pos h]

lemma run_step_num_us {c : Char} (h : c.toNat = 95) (cs pos n f fc dec cur) :
    run (c :: cs) pos (.num n f fc dec) cur = run cs (pos + 1) (.num n f fc dec) cur := by
  conv_lhs => unfold run
  rw [if_neg (us_not_digit h), if_neg (us_not_ws h), if_pos h]

lemma run_step_num_dot {c : Char} (h : c.toNat = 46) (cs pos n f fc cur) :
    run (c :: cs) pos (.num n f fc false) cur = run cs (pos + 1) (.num n f fc true) cur := by
  conv_lhs => unfold run
  rw [if_neg (dot_not_digit h), if_neg (dot_not_ws h),
    if_neg (by omega : ¬ c.toNat = 95), if_pos h, if_neg Bool.false_ne_true]

lemma run_step_num_unit {c : Char} (h : isUnitChar c) (cs pos n f fc dec cur) :
    run (c :: cs) pos (.num n f fc dec) cur =
      run cs (pos + 1) (.uscan n f fc pos [c]) cur := by
  conv_lhs => unfold run
  rw [if_neg (unit_not_digit h), if_neg (unit_not_ws h), if_neg (unit_not_us h),
    if_neg (unit_not_dot h), if_pos h]

lemma run_step_uscan_unit {c : Char} (h : isUnitChar c) (cs pos n f fc st acc cur) :
    run (c :: cs) pos (.uscan n f fc st acc) cur =
      run cs (pos + 1) (.uscan n f fc st (acc ++ [c])) cur := by
  conv_lhs => unfold run
  rw [if_neg (unit_not_digit h), if_neg (unit_not_ws h), if_pos h]

lemma run_step_uscan_ws_ok {c : Char} (h : rustWhitespace c) {cur cur2 : Bandwidth}
    {n f fc st pos : ℕ} {acc : List Char}
    (hp : parse_binary_unit cur n f fc st pos (String.mk acc) = .ok cur2) (cs) :
    run (c :: cs) pos (.uscan n f fc st acc) cur =
      run cs (pos + utf8Len c) (.start false) cur2 := by
  conv_lhs => unfold run
  rw [if_neg (ws_not_digit h), if_pos h, hp]

lemma run_step_uscan_ws_err {c : Char} (h : rustWhitespace c) {cur : Bandwidth}
    {n f fc st pos : ℕ} {acc : List Char} {e : Error}
    (hp : parse_binary_unit cur n f fc st pos (String.mk acc) = .error e) (cs) :
    run (c :: cs) pos (.uscan n f fc st acc) cur = .error e := by
  conv_lhs => unfold run
  rw [if_neg (ws_not_digit h), if_pos h, hp]

/- Digit accumulation facts. -/

lemma foldDigits_cons (n : ℕ) (c : Char) (ds : List Char) :
    foldDigits n (c :: ds) = foldDigits (n * 10 + dval c) ds := rfl

lemma le_foldDigits (n : ℕ) (ds : List Char) : n ≤ foldDigits n ds := by
  induction ds generalizing n with
  | nil => exact le_rfl
  | cons c t ih =>
    rw [foldDigits_cons]
    exact le_trans (by omega) (ih (n * 10 + dval c))

/-- Scanning a block of integer digits: the digit loop folds them into the
accumulator with the checked multiply and add, stopping with the overflow
error as soon as an intermediate value reaches the u64 bound. -/
lemma run_digits : ∀ (ds cs : List Char) (pos n f fc : ℕ) (cur : Bandwidth),
    (∀ c ∈ ds, isDigitChar c) → n < 2 ^ 64 →
    run (ds ++ cs) pos (.num n f fc false) cur =
      if foldDigits n ds < 2 ^ 64 then
        run cs (pos + ds.length) (.num (foldDigits n ds) f fc false) cur
      else .error .NumberOverflow := by
  intro ds
  induction ds with
  | nil =>
    intro cs pos n f fc cur _ hn
    simp only [List.nil_append, List.length_nil, Nat.add_zero, foldDigits, List.foldl_nil]
    rw [if_pos hn]
  | cons c t ih =>
    intro cs pos n f fc cur hds hn
    have hc : isDigitChar c := hds c (by simp)
    rw [List.cons_append, run_step_num_digit_int hc, foldDigits_cons]
    by_cases hov : n * 10 + dval c < 2 ^ 64
    · rw [if_pos hov, ih cs (pos + 1) _ f fc cur (fun x hx => hds x (List.mem_cons_of_mem c hx)) hov]
      have hlen : pos + 1 + t.length = pos + (c :: t).length := by simp; omega
      rw [hlen]
    · rw [if_neg hov]
      have : ¬ foldDigits (n * 10 + dval c) t < 2 ^ 64 := by
        have := le_foldDigits (n * 10 + dval c) t
        omega
      rw [if_neg this]

/- Fraction accumulation facts. -/

lemma fracFold_cons (s : ℕ × ℕ) (c : Char) (ds : List Char) :
    fracFold s (c :: ds) = fracFold (fracStep s c) ds := rfl

lemma fracStep_inv {s : ℕ × ℕ} {c : Char} (hc : isDigitChar c)
    (h1 : s.1 < 10 ^ s.2) (h2 : s.2 ≤ FRACTION_PART_LIMIT) :
    (fracStep s c).1 < 10 ^ (fracStep s c).2 ∧ (fracStep s c).2 ≤ FRACTION_PART_LIMIT := by
  unfold fracStep
  by_cases hcap : FRACTION_PART_LIMIT ≤ s.2
  · rw [if_pos hcap]
    exact ⟨h1, h2⟩
  · have hd := digit_dval_le hc
    rw [if_neg hcap]
    refine ⟨?_, by omega⟩
    have hlt : s.1 * 10 + dval c < 10 ^ s.2 * 10 := by omega
    calc s.1 * 10 + dval c < 10 ^ s.2 * 10 := hlt
      _ = 10 ^ (s.2 + 1) := (pow_succ 10 s.2).symm

lemma fracFold_inv : ∀ (ds : List Char) (s : ℕ × ℕ),
    (∀ c ∈ ds, isDigitChar c) → s.1 < 10 ^ s.2 → s.2 ≤ FRACTION_PART_LIMIT →
    (fracFold s ds).1 < 10 ^ (fracFold s ds).2 ∧ (fracFold s ds).2 ≤ FRACTION_PART_LIMIT := by
  intro ds
  induction ds with
  | nil => intro s _ h1 h2; exact ⟨h1, h2⟩
  | cons c t ih =>
    intro s hds h1 h2
    have hc : isDigitChar c := hds c (by simp)
    rw [fracFold_cons]
    obtain ⟨j1, j2⟩ := fracStep_inv hc h1 h2
    exact ih _ (fun x hx => hds x (List.mem_cons_of_mem c hx)) j1 j2

/-- Scanning a block of fraction digits: with the in-range invariant on the
fraction accumulator the checked arithmetic cannot fail, digits past the cap
are discarded, and the loop ends in the same mode. -/
lemma run_fracDigits : ∀ (ds cs : List Char) (pos n : ℕ) (s : ℕ × ℕ) (cur : Bandwidth),
    (∀ c ∈ ds, isDigitChar c) → s.1 < 10 ^ s.2 → s.2 ≤ FRACTION_PART_LIMIT →
    run (ds ++ cs) pos (.num n s.1 s.2 true) cur =
      run cs (pos + ds.length) (.num n (fracFold s ds).1 (fracFold s ds).2 true) cur := by
  intro ds
  induction ds with
  | nil =>
    intro cs pos n s cur _ _ _
    simp [fracFold]
  | cons c t ih =>
    intro cs pos n s cur hds h1 h2
    have hc : isDigitChar c := hds c (by simp)
    have hstep : run ((c :: t) ++ cs) pos (.num n s.1 s.2 true) cur =
        run (t ++ cs) (pos + 1) (.num n (fracStep s c).1 (fracStep s c).2 true) cur := by
      unfold fracStep
      by_cases hcap : FRACTION_PART_LIMIT ≤ s.2
      · rw [List.cons_append, run_step_num_digit_cap hc hcap, if_pos hcap]
      · have hle : 10 ^ s.2 ≤ 10 ^ FRACTION_PART_LIMIT :=
          Nat.pow_le_pow_right (by omega) (by omega)
        have hcapval : (10 : ℕ) ^ FRACTION_PART_LIMIT = 1000000000000000000 := by
          norm_num [FRACTION_PART_LIMIT]
        have hd := digit_dval_le hc
        have hov : s.1 * 10 + dval c < 2 ^ 64 := by
          have : s.1 < 1000000000000000000 := by omega
          omega
        rw [List.cons_append, run_step_num_digit_frac hc (by omega) hov, if_neg hcap]
    rw [hstep, fracFold_cons]
    obtain ⟨j1, j2⟩ := fracStep_inv hc h1 h2
    rw [ih cs (pos + 1) n (fracStep s c) cur
      (fun x hx => hds x (List.mem_cons_of_mem c hx)) j1 j2]
    have hlen : pos + 1 + t.length = pos + (c :: t).length := by simp; omega
    rw [hlen]

/-- Scanning a block of unit characters: the unit loop consumes them all,
appending to the accumulated substring. -/
lemma run_units : ∀ (us cs : List Char) (pos n f fc st : ℕ) (acc : List Char) (cur : Bandwidth),
    (∀ c ∈ us, isUnitChar c) →
    run (us ++ cs) pos (.uscan n f fc st acc) cur =
      run cs (pos + us.length) (.uscan n f fc st (acc ++ us)) cur := by
  intro us
  induction us with
  | nil =>
    intro cs pos n f fc st acc cur _
    simp
  | cons c t ih =>
    intro cs pos n f fc st acc cur hus
    have hc : isUnitChar c := hus c (by simp)
    rw [List.cons_append, run_step_uscan_unit hc,
      ih cs (pos + 1) n f fc st (acc ++ [c]) cur (fun x hx => hus x (List.mem_cons_of_mem c hx))]
    have hlen : pos + 1 + t.length = pos + (c :: t).length := by simp; omega
    rw [hlen]
    simp

/- Alias table facts. -/

lemma lookupLevel_mem : ∀ (l : List (String × ℕ)) (u : String) (L : ℕ),
    lookupLevel l u = some L → (u, L) ∈ l := by
  intro l
  induction l with
  | nil => intro u L h; simp [lookupLevel] at h
  | cons p t ih =>
    intro u L h
    unfold lookupLevel at h
    by_cases hp : p.1 = u
    · rw [if_pos hp] at h
      injection h with h2
      have hpu : p = (u, L) := by
        cases p
        simp_all
      rw [← hpu]
      exact List.mem_cons_self p t
    · rw [if_neg hp] at h
      exact List.mem_cons_of_mem p (ih u L h)

lemma aliasTable_facts : ∀ p ∈ aliasTable,
    p.2 ≤ 4 ∧ p.1.data ≠ [] ∧ ∀ c ∈ p.1.data, isUnitChar c := by decide

lemma aliasLevel_facts {u : String} {L : ℕ} (h : aliasLevel u = some L) :
    L ≤ 4 ∧ u.data ≠ [] ∧ ∀ c ∈ u.data, isUnitChar c :=
  aliasTable_facts (u, L) (lookupLevel_mem aliasTable u L h)

/- Magnitude arithmetic facts. -/

lemma ofBits_totalBits (t : ℕ) : (Bandwidth.ofBits t).totalBits = t := by
  simp only [Bandwidth.ofBits, Bandwidth.totalBits]
  omega

lemma ofBits_bps_lt (t : ℕ) : (Bandwidth.ofBits t).bps < 1000000000 := by
  simp only [Bandwidth.ofBits]
  omega

lemma checkedAdd_eq {a b : Bandwidth} (ha : a.bps < 1000000000) (hb : b.bps < 1000000000) :
    a.checkedAdd b =
      if a.totalBits + b.totalBits < 2 ^ 64 * 1000000000 then
        .ok (Bandwidth.ofBits (a.totalBits + b.totalBits))
      else .error .NumberOverflow := by
  unfold Bandwidth.checkedAdd Bandwidth.ofBits Bandwidth.totalBits
  by_cases h : a.gbps + b.gbps + (a.bps + b.bps) / 1000000000 < 2 ^ 64
  · rw [if_pos h, if_pos (by omega)]
    have e1 : a.gbps + b.gbps + (a.bps + b.bps) / 1000000000 =
        (a.gbps * 1000000000 + a.bps + (b.gbps * 1000000000 + b.bps)) / 1000000000 := by
      omega
    have e2 : (a.bps + b.bps) % 1000000000 =
        (a.gbps * 1000000000 + a.bps + (b.gbps * 1000000000 + b.bps)) % 1000000000 := by
      omega
    rw [e1, e2]
  · rw [if_neg h, if_neg (by omega)]

/-- Bound on the rounded byte count of a fractional part: a fraction below
one unit gives fewer than one unit of bytes, up to the final half. -/
lemma pbf_val_lt {f fc L : ℕ} (hL : L ≤ 4) (hf : f < 10 ^ fc) :
    (f * 2 ^ (10 * L) + 10 ^ fc / 2) / 10 ^ fc < 2 ^ (10 * L) + 1 := by
  apply Nat.div_lt_of_lt_mul
  have hpos : (0 : ℕ) < 2 ^ (10 * L) := Nat.pos_pow_of_pos _ (by omega)
  have hpow : (0 : ℕ) < 10 ^ fc := Nat.pos_pow_of_pos fc (by omega)
  have hmul : f * 2 ^ (10 * L) + 2 ^ (10 * L) ≤ 10 ^ fc * 2 ^ (10 * L) := by
    have h1 : (f + 1) * 2 ^ (10 * L) ≤ 10 ^ fc * 2 ^ (10 * L) :=
      Nat.mul_le_mul_right _ (by omega)
    calc f * 2 ^ (10 * L) + 2 ^ (10 * L) = (f + 1) * 2 ^ (10 * L) := by ring
      _ ≤ 10 ^ fc * 2 ^ (10 * L) := h1
  have hexp : 10 ^ fc * (2 ^ (10 * L) + 1) = 10 ^ fc * 2 ^ (10 * L) + 10 ^ fc := by ring
  omega

/-- The value parse_binary_fraction computes when the invariants of the digit
loop hold: no modelled cast truncates, and the result is the half-up rounded
quotient. -/
lemma parse_binary_fraction_eq {f fc L : ℕ} (hL : L ≤ 4) (hf : f < 10 ^ fc)
    (hfc : fc ≤ FRACTION_PART_LIMIT) :
    parse_binary_fraction f fc L = .ok ((f * 2 ^ (10 * L) + 10 ^ fc / 2) / 10 ^ fc) := by
  unfold parse_binary_fraction
  rw [if_neg (by omega : ¬ 128 ≤ 10 * L)]
  have hfc18 : fc ≤ 18 := by
    have : FRACTION_PART_LIMIT = 18 := rfl
    omega
  have hfb : f < 2 ^ 60 := by
    have h1 : (10 : ℕ) ^ fc ≤ 10 ^ 18 := Nat.pow_le_pow_right (by omega) hfc18
    have h2 : (10 : ℕ) ^ 18 < 2 ^ 60 := by norm_num
    omega
  have hsh : (2 : ℕ) ^ (10 * L) ≤ 2 ^ 40 := Nat.pow_le_pow_right (by omega) (by omega)
  have h1 : f * 2 ^ (10 * L) < 2 ^ 128 := by
    have : f * 2 ^ (10 * L) < 2 ^ 60 * 2 ^ 40 := by
      apply Nat.mul_lt_mul_of_lt_of_le hfb hsh
      norm_num
    calc f * 2 ^ (10 * L) < 2 ^ 60 * 2 ^ 40 := this
      _ ≤ 2 ^ 128 := by norm_num
  rw [Nat.mod_eq_of_lt h1]
  have h2 : (f * 2 ^ (10 * L) + 10 ^ fc / 2) / 10 ^ fc < 2 ^ 64 := by
    have hdivlt := pbf_val_lt hL hf
    have hlast : 2 ^ (10 * L) + 1 ≤ 2 ^ 64 := by
      have : (2 : ℕ) ^ 40 + 1 ≤ 2 ^ 64 := by norm_num
      omega
    omega
  rw [Nat.mod_eq_of_lt h2]

/-- The characterization of parse_binary_unit once the unit resolves and the
digit-loop invariants hold: errors happen exactly on the two real overflow
checks, and otherwise the span bits fold into the running total. -/
lemma parse_binary_unit_eq {cur : Bandwidth} {n f fc : ℕ} {u : String} {L : ℕ}
    (s e : ℕ)
    (hA : aliasLevel u = some L) (hn : n < 2 ^ 64) (hf : f < 10 ^ fc)
    (hfc : fc ≤ FRACTION_PART_LIMIT) (hcur : cur.bps < 1000000000) :
    parse_binary_unit cur n f fc s e u =
      if (n * 2 ^ (10 * L) + (f * 2 ^ (10 * L) + 10 ^ fc / 2) / 10 ^ fc) * 8
            < 2 ^ 64 * 1000000000 ∧
          cur.totalBits + (n * 2 ^ (10 * L) + (f * 2 ^ (10 * L) + 10 ^ fc / 2) / 10 ^ fc) * 8
            < 2 ^ 64 * 1000000000 then
        .ok (Bandwidth.ofBits
          (cur.totalBits +
            (n * 2 ^ (10 * L) + (f * 2 ^ (10 * L) + 10 ^ fc / 2) / 10 ^ fc) * 8))
      else .error .NumberOverflow := by
  obtain ⟨hL, -, -⟩ := aliasLevel_facts hA
  unfold parse_binary_unit
  rw [hA]
  dsimp only
  rw [if_neg (by omega : ¬ 128 ≤ 10 * L), parse_binary_fraction_eq hL hf hfc]
  dsimp only
  have hsh : (2 : ℕ) ^ (10 * L) ≤ 2 ^ 40 := Nat.pow_le_pow_right (by omega) (by omega)
  have hFlt : (f * 2 ^ (10 * L) + 10 ^ fc / 2) / 10 ^ fc < 2 ^ 40 + 1 := by
    have := pbf_val_lt hL hf
    omega
  have hmod : n * 2 ^ (10 * L) % 2 ^ 128 = n * 2 ^ (10 * L) := by
    apply Nat.mod_eq_of_lt
    have : n * 2 ^ (10 * L) < 2 ^ 64 * 2 ^ 40 :=
      Nat.mul_lt_mul_of_lt_of_le hn hsh (by norm_num)
    calc n * 2 ^ (10 * L) < 2 ^ 64 * 2 ^ 40 := this
      _ ≤ 2 ^ 128 := by norm_num
  have hnm : n * 2 ^ (10 * L) ≤ 2 ^ 64 * 2 ^ 40 := by
    have : n * 2 ^ (10 * L) ≤ 2 ^ 64 * 2 ^ 40 :=
      Nat.mul_le_mul (by omega) hsh
    exact this
  rw [hmod]
  set m := n * 2 ^ (10 * L) + (f * 2 ^ (10 * L) + 10 ^ fc / 2) / 10 ^ fc with hm
  have hmsmall : m < 2 ^ 105 := by
    have : (2 : ℕ) ^ 64 * 2 ^ 40 + (2 ^ 40 + 1) < 2 ^ 105 := by norm_num
    omega
  rw [if_pos (by omega : m < 2 ^ 128), if_pos (by omega : m * 8 < 2 ^ 128)]
  by_cases hg : 2 ^ 64 - 1 < m * 8 / 1000000000
  · rw [if_pos hg, if_neg (by omega)]
  · rw [if_neg hg]
    have hb2 : m * 8 % 1000000000 % 2 ^ 32 = m * 8 % 1000000000 := by omega
    have hnewbps : (Bandwidth.new (m * 8 / 1000000000) (m * 8 % 1000000000 % 2 ^ 32)).bps
        < 1000000000 := by
      simp only [Bandwidth.new]
      omega
    rw [checkedAdd_eq hcur hnewbps]
    have htb : (Bandwidth.new (m * 8 / 1000000000) (m * 8 % 1000000000 % 2 ^ 32)).totalBits
        = m * 8 := by
      simp only [Bandwidth.new, Bandwidth.totalBits]
      omega
    rw [htb]
    have hcond : cur.totalBits + m * 8 < 2 ^ 64 * 1000000000 ↔
        (m * 8 < 2 ^ 64 * 1000000000 ∧ cur.totalBits + m * 8 < 2 ^ 64 * 1000000000) := by
      constructor
      · intro h
        exact ⟨by omega, h⟩
      · intro h
        exact h.2
    by_cases hs : cur.totalBits + m * 8 < 2 ^ 64 * 1000000000
    · rw [if_pos hs, if_pos (hcond.mp hs)]
    · rw [if_neg hs, if_neg (by rw [← hcond] at *; exact hs)]

/-- Scanning one whole rate-span from first-char mode: the digits fold into
the integer accumulator (erroring on u64 overflow exactly as the digit loop
does), the optional fraction folds under the cap, and the unit spelling is
accumulated, leaving the machine in unit-scanning mode at the end of the
span with the rest of the input untouched. -/
lemma run_span (ds : List Char) (fr : Option (List Char)) (u : String) (cs : List Char)
    (pos : ℕ) (b : Bool) (cur : Bandwidth)
    (hne : ds ≠ []) (hds : ∀ c ∈ ds, isDigitChar c)
    (hfr : ∀ fs, fr = some fs → ∀ c ∈ fs, isDigitChar c)
    (huc : ∀ c ∈ u.data, isUnitChar c) (hund : u.data ≠ []) :
    run (spanChars ds fr u ++ cs) pos (.start b) cur =
      if digitsVal ds < 2 ^ 64 then
        run cs (pos + (spanChars ds fr u).length)
          (.uscan (digitsVal ds) (fracFold (0, 0) (fr.getD [])).1
            (fracFold (0, 0) (fr.getD [])).2
            (pos + ds.length + (fracPart fr).length) u.data) cur
      else .error .NumberOverflow := by
  obtain ⟨c0, t, rfl⟩ := List.exists_cons_of_ne_nil hne
  obtain ⟨u0, us, hu⟩ := List.exists_cons_of_ne_nil hund
  have hc0 : isDigitChar c0 := hds c0 (by simp)
  have hstep1 : spanChars (c0 :: t) fr u ++ cs =
      c0 :: (t ++ (fracPart fr ++ (u.data ++ cs))) := by
    simp [spanChars]
  rw [hstep1, run_step_start_digit hc0]
  have hd0 : dval c0 < 2 ^ 64 := by
    have := digit_dval_le hc0
    omega
  rw [run_digits t _ (pos + 1) (dval c0) 0 0 cur
    (fun x hx => hds x (List.mem_cons_of_mem c0 hx)) hd0]
  have hfold : foldDigits (dval c0) t = digitsVal (c0 :: t) := by
    unfold digitsVal
    rw [foldDigits_cons]
    norm_num
  rw [hfold]
  by_cases hov : digitsVal (c0 :: t) < 2 ^ 64
  · rw [if_pos hov, if_pos hov]
    cases fr with
    | none =>
      have hfp : fracPart none = ([] : List Char) := rfl
      rw [hfp, List.nil_append, hu, List.cons_append]
      have hu0 : isUnitChar u0 := huc u0 (by rw [hu]; exact List.mem_cons_self u0 us)
      rw [run_step_num_unit hu0]
      rw [run_units us cs _ _ _ _ _ _ cur
        (fun x hx => huc x (by rw [hu]; exact List.mem_cons_of_mem u0 hx))]
      have e1 : pos + 1 + t.length + 1 + us.length =
          pos + (spanChars (c0 :: t) none u).length := by
        simp [spanChars, fracPart, hu]
        omega
      have e2 : pos + 1 + t.length = pos + (c0 :: t).length + (fracPart (none : Option (List Char))).length := by
        simp [fracPart]
        omega
      rw [e1, e2]
      have e3 : ([u0] ++ us : List Char) = u0 :: us := rfl
      rw [e3]
      rfl
    | some fs =>
      have hfp : fracPart (some fs) = '.' :: fs := rfl
      rw [hfp, List.cons_append]
      have hdot : ('.' : Char).toNat = 46 := rfl
      rw [run_step_num_dot hdot]
      have hfs : ∀ c ∈ fs, isDigitChar c := hfr fs rfl
      have hnil1 : (0 : ℕ) < 10 ^ 0 := by norm_num
      rw [run_fracDigits fs (u.data ++ cs) (pos + 1 + t.length + 1) (digitsVal (c0 :: t))
        (0, 0) cur hfs hnil1 (by simp [FRACTION_PART_LIMIT])]
      rw [hu, List.cons_append]
      have hu0 : isUnitChar u0 := huc u0 (by rw [hu]; exact List.mem_cons_self u0 us)
      rw [run_step_num_unit hu0]
      rw [run_units us cs _ _ _ _ _ _ cur
        (fun x hx => huc x (by rw [hu]; exact List.mem_cons_of_mem u0 hx))]
      have e1 : pos + 1 + t.length + 1 + fs.length + 1 + us.length =
          pos + (spanChars (c0 :: t) (some fs) u).length := by
        simp [spanChars, fracPart, hu]
        omega
      have e2 : pos + 1 + t.length + 1 + fs.length =
          pos + (c0 :: t).length + (fracPart (some fs)).length := by
        simp [fracPart]
        omega
      rw [e1, e2]
      have e3 : ([u0] ++ us : List Char) = u0 :: us := rfl
      rw [e3]
      rfl
  · rw [if_neg hov, if_neg hov]

/-- The shift-boundary rounding of fmt_decimal is exactly round half to even:
adding the half-way term and shifting rounds half up, and undoing the round
up when the tie leaves an odd value lands on the even neighbour. -/
lemma decRescale_rhe (r i : ℕ) (hi : 1 ≤ i) :
    decRescale r i = roundHalfEven (r * 1000 ^ i) (2 ^ (i * 10)) := by
  unfold decRescale roundHalfEven
  dsimp only
  rw [if_neg (by omega : ¬ i = 0)]
  set d := (2 : ℕ) ^ (i * 10) with hd
  set R := (2 : ℕ) ^ (i * 10 - 1) with hR
  set m := r * 1000 ^ i with hm
  have hdpos : 0 < d := Nat.pos_pow_of_pos _ (by omega)
  have h2r : 2 * R = d := by
    rw [hR, hd, ← pow_succ']
    congr 1
    omega
  have hdm0 := Nat.div_add_mod m d
  have hremlt : m % d < d := Nat.mod_lt _ hdpos
  obtain ⟨q0, hq0⟩ : ∃ q, q = m / d := ⟨m / d, rfl⟩
  obtain ⟨rem, hrem⟩ : ∃ x, x = m % d := ⟨m % d, rfl⟩
  rw [← hq0] at hdm0 ⊢
  rw [← hrem] at hdm0 hremlt ⊢
  have hq1 : (m + R) / d = q0 + (rem + R) / d := by
    have hsplit : m + R = d * q0 + (rem + R) := by omega
    rw [hsplit, Nat.mul_add_div hdpos, hq0]
  have hsmall : (rem + R) / d = if d ≤ rem + R then 1 else 0 := by
    by_cases hle : d ≤ rem + R
    · rw [if_pos hle]
      exact Nat.div_eq_of_lt_le (by omega) (by omega)
    · rw [if_neg hle]
      exact Nat.div_eq_of_lt (by omega)
  rw [hsmall] at hq1
  rw [hq1]
  clear hq0 hrem hsmall
  split_ifs <;> omega

/-- C1: the claim says both renderings are total over the full magnitude
range and that the bits-per-second reconstruction never overflows its
integer width. The code computes gbps times one billion plus bps in u64:
at the magnitude with 18446744074 whole gigabits per second the true total
needs more than 64 bits, the wrapped value differs from it, and both
formatters consequently render this huge magnitude exactly like the tiny
wrapped one. -/
theorem C1_render_total_overflows :
    2 ^ 64 ≤ Bandwidth.totalBits ⟨18446744074, 0⟩ ∧
    fmt_total 18446744074 0 ≠ Bandwidth.totalBits ⟨18446744074, 0⟩ ∧
    fmt_integer ⟨18446744074, 0⟩ = fmt_integer ⟨0, 290448384⟩ ∧
    fmt_decimal ⟨18446744074, 0⟩ none = fmt_decimal ⟨0, 290448384⟩ none :=
  ⟨by decide, by decide, rfl, rfl⟩

/-- C2: the claim says the precision rounding pass carries into the integer
component for every magnitude and every requested precision. At the
magnitude of 9 kibibytes and 983 bytes per second (81592 bits per second)
with precision 1 the rounded fraction carries to ten tenths, but the code
prints the two-digit remainder after the point instead of incrementing the
integer part: the output is 9.10KiB/s where the stated rounding gives
10.0KiB/s. The integer fold happens only at precision zero. -/
theorem C2_precision_carry_not_folded :
    fmt_decimal ⟨0, 81592⟩ (some 1) = "9.10KiB/s" := rfl

/-- C9: overflow boundaries of the integer accumulator. The 21-digit literal
overflows the u64 accumulator while the 20-digit one parses; at the gibi and
tebi levels the boundary falls at smaller literals because of the left shift
and the multiplication by 8 during unit conversion. -/
theorem C9_overflow_boundary :
    parse_binary_bandwidth "100_000_000_000_000_000_000Bps" = .error .NumberOverflow ∧
    parse_binary_bandwidth "10_000_000_000_000_000_000Bps" =
      .ok (Bandwidth.ofBits (10 ^ 19 * 8)) ∧
    parse_binary_bandwidth "10_000_000_000_000_000_000GiBps" = .error .NumberOverflow ∧
    parse_binary_bandwidth "1_000_000_000_000_000_000GiBps" =
      .ok (Bandwidth.ofBits (10 ^ 18 * 1024 ^ 3 * 8)) ∧
    parse_binary_bandwidth "10_000_000_000_000_000TiBps" = .error .NumberOverflow ∧
    parse_binary_bandwidth "1_000_000_000_000_000TiBps" =
      .ok (Bandwidth.ofBits (10 ^ 15 * 1024 ^ 4 * 8)) :=
  ⟨rfl, rfl, rfl, rfl, rfl, rfl⟩

/-- C3: the sub-anchor remainder rescaling of fmt_decimal multiplies by 1000
to the index and shifts right by ten times the index bits with round half to
even applied exactly at the shift boundary, and in particular the magnitude
of 9 tebibytes and 384 gibibytes per second renders as 9.375TiB/s when no
precision is requested. -/
theorem C3_rescale_ties_to_even :
    (∀ (r i : ℕ), 1 ≤ i →
      decRescale r i = roundHalfEven (r * 1000 ^ i) (2 ^ (10 * i))) ∧
    fmt_decimal (Bandwidth.ofBits ((9 * 1024 ^ 4 + 384 * 1024 ^ 3) * 8)) none =
      "9.375TiB/s" := by
  constructor
  · intro r i hi
    rw [Nat.mul_comm 10 i]
    exact decRescale_rhe r i hi
  · rfl

/-- Witness for C3: the rescaling lemma applied at the sub-anchor remainder
of the worked example, together with its evaluated tie-free value. -/
theorem C3_witness :
    1 ≤ 4 ∧
    decRescale 412316860416 4 = roundHalfEven (412316860416 * 1000 ^ 4) (2 ^ (10 * 4)) ∧
    decRescale 412316860416 4 = 375000000000 :=
  ⟨by decide, C3_rescale_ties_to_even.1 412316860416 4 (by decide), by decide⟩

/-- C4: parsing a fractional span rounds the sub-byte fraction to the
nearest whole byte with ties away from zero, computed by the shift-add-half
then divide formula, and fraction digits past the module-wide cap are
discarded unseen by the accumulator (the first conjunct is the digit-loop
step at the cap). The two worked inputs evaluate to the formula values. -/
theorem C4_fraction_rounds_half_away :
    (∀ (n f fc : ℕ) (c : Char) (cs : List Char) (pos : ℕ) (cur : Bandwidth),
        FRACTION_PART_LIMIT ≤ fc → isDigitChar c →
        run (c :: cs) pos (.num n f fc true) cur =
          run cs (pos + 1) (.num n f fc true) cur) ∧
    parse_binary_fraction 24 3 1 = .ok ((24 * 2 ^ (10 * 1) + 10 ^ 3 / 2) / 10 ^ 3) ∧
    parse_binary_bandwidth "150.024KiBps" =
      .ok (Bandwidth.ofBits ((150024 * 1024 + 10 ^ 3 / 2) / 10 ^ 3 * 8)) ∧
    parse_binary_bandwidth "150.02456KiBps" =
      .ok (Bandwidth.ofBits ((15002456 * 1024 + 10 ^ 5 / 2) / 10 ^ 5 * 8)) := by
  refine ⟨?_, rfl, rfl, rfl⟩
  intro n f fc c cs pos cur hcap hc
  exact run_step_num_digit_cap hc hcap cs pos n f cur

/-- Witness for C4: the cap-discard step applied at the cap itself. -/
theorem C4_witness :
    FRACTION_PART_LIMIT ≤ 18 ∧ isDigitChar '9' ∧
    run ['9'] 7 (.num 1 5 18 true) ⟨0, 0⟩ = run [] 8 (.num 1 5 18 true) ⟨0, 0⟩ :=
  ⟨by decide, by decide,
    C4_fraction_rounds_half_away.1 1 5 18 '9' [] 7 ⟨0, 0⟩ (by decide) (by decide)⟩

/-- C7 counterexample: the claim says every case variation of the prefix
letters of a recognized alias resolves to the same level, but only the
leading letter may vary: KIBps, with the interior letter upper-cased, is an
unknown-unit error while KiBps resolves to the kibi level. -/
theorem C7_counterexample :
    parse_binary_bandwidth "1KIBps" = .error (.UnknownBinaryUnit 1 6 "KIBps" 1) ∧
    parse_binary_bandwidth "1KiBps" = .ok (Bandwidth.ofBits 8192) :=
  ⟨rfl, rfl⟩

/-- C7 amended: for every recognized binary-prefixed alias only the leading
prefix letter is case-insensitive (the interior letter i must stay
lowercase); both spellings of the leading letter resolve to the same level;
the table is a closed static set and any unit text outside it makes
parse_binary_unit return the unknown-unit error carrying that text. -/
theorem C7_amended_leading_letter_case :
    (∀ pr ∈ [("ki", "Ki", 1), ("Mi", "mi", 2), ("Gi", "gi", 3), ("Ti", "ti", 4)],
       ∀ suf ∈ ["Bps", "Byte/s", "B/s", "ops", "o/s"],
         aliasLevel (pr.1 ++ suf) = some pr.2.2 ∧
         aliasLevel (pr.2.1 ++ suf) = some pr.2.2) ∧
    (∀ (cur : Bandwidth) (n f fc s e : ℕ) (u : String), aliasLevel u = none →
       parse_binary_unit cur n f fc s e u = .error (.UnknownBinaryUnit s e u n)) := by
  constructor
  · decide
  · intro cur n f fc s e u hu
    unfold parse_binary_unit
    rw [hu]

/-- Witness for C7: the closedness conjunct applied at a concrete unknown
spelling, and one table pair read off the first conjunct. -/
theorem C7_witness :
    aliasLevel "xyz" = none ∧
    parse_binary_unit ⟨0, 0⟩ 7 0 0 2 5 "xyz" = .error (.UnknownBinaryUnit 2 5 "xyz" 7) ∧
    aliasLevel ("Mi" ++ "Bps") = some 2 :=
  ⟨by decide,
    C7_amended_leading_letter_case.2 ⟨0, 0⟩ 7 0 0 2 5 "xyz" (by decide),
    (C7_amended_leading_letter_case.1 ("Mi", "mi", 2) (by decide) "Bps" (by decide)).1⟩

/-- C8 counterexample: the claim says the input that ends right after a
number yields a unit-needed failure kind distinct from the unknown-unit
error; the parser in fact returns the UnknownBinaryUnit constructor itself,
with an empty offending substring, carrying the parsed number. -/
theorem C8_counterexample :
    parse_binary_bandwidth "123" = .error (.UnknownBinaryUnit 3 3 "" 123) := rfl

/-- C8 amended: an input that is digits to the very end makes the parser
return the unknown-unit error with an empty offending substring located at
the end of the input and carrying the number just parsed as the example
value; the unit-needed case is told apart from a genuine unknown unit by
the emptiness of the substring, not by a distinct error variant. -/
theorem C8_amended_empty_unknown_unit (ds : List Char)
    (hne : ds ≠ []) (hds : ∀ c ∈ ds, isDigitChar c) (hn : digitsVal ds < 2 ^ 64) :
    parse_binary_bandwidth (String.mk ds) =
      .error (.UnknownBinaryUnit ds.length ds.length "" (digitsVal ds)) := by
  obtain ⟨c0, t, rfl⟩ := List.exists_cons_of_ne_nil hne
  show run (c0 :: t) 0 (.start true) ⟨0, 0⟩ = _
  have hc0 : isDigitChar c0 := hds c0 (by simp)
  rw [run_step_start_digit hc0]
  have hd0 : dval c0 < 2 ^ 64 := by
    have := digit_dval_le hc0
    omega
  have h2 := run_digits t [] (0 + 1) (dval c0) 0 0 ⟨0, 0⟩
    (fun x hx => hds x (List.mem_cons_of_mem c0 hx)) hd0
  rw [List.append_nil] at h2
  rw [h2]
  have hfold : foldDigits (dval c0) t = digitsVal (c0 :: t) := by
    unfold digitsVal
    rw [foldDigits_cons]
    norm_num
  rw [hfold, if_pos hn]
  have hlen : 0 + 1 + t.length = (c0 :: t).length := by
    simp
    omega
  rw [hlen]
  rfl

/-- Witness for C8: the amended statement applied at the input 123. -/
theorem C8_witness :
    (['1', '2', '3'] : List Char) ≠ [] ∧ digitsVal ['1', '2', '3'] < 2 ^ 64 ∧
    parse_binary_bandwidth (String.mk ['1', '2', '3']) =
      .error (.UnknownBinaryUnit 3 3 "" (digitsVal ['1', '2', '3'])) := by
  refine ⟨by decide, by decide, ?_⟩
  have h := C8_amended_empty_unknown_unit ['1', '2', '3'] (by decide) (by decide) (by decide)
  simpa using h

/-- C10: whitespace and underscores are skipped wherever the digit loop is
scanning, including between the last digit and the unit letters, without
terminating the span: the general step identity for the digit loop, plus
the two concrete pairs of inputs parsing alike. -/
theorem C10_separators_skipped_in_digits :
    (∀ (c : Char) (cs : List Char) (pos n f fc : ℕ) (dec : Bool) (cur : Bandwidth),
        rustWhitespace c ∨ c.toNat = 95 →
        run (c :: cs) pos (.num n f fc dec) cur =
          run cs (pos + utf8Len c) (.num n f fc dec) cur) ∧
    parse_binary_bandwidth "10 GiBps" = parse_binary_bandwidth "10GiBps" ∧
    parse_binary_bandwidth "1 2Bps" = parse_binary_bandwidth "12Bps" := by
  refine ⟨?_, rfl, rfl⟩
  intro c cs pos n f fc dec cur h
  rcases h with h | h
  · exact run_step_num_ws h cs pos n f fc dec cur
  · rw [run_step_num_us h cs pos n f fc dec cur,
      show utf8Len c = 1 by unfold utf8Len; rw [if_pos (by omega)]]

/-- Witness for C10: the skip step applied at a space inside a number. -/
theorem C10_witness :
    (rustWhitespace ' ' ∨ Char.toNat ' ' = 95) ∧
    run [' '] 5 (.num 3 4 2 true) ⟨1, 2⟩ = run [] (5 + utf8Len ' ') (.num 3 4 2 true) ⟨1, 2⟩ :=
  ⟨by decide,
    C10_separators_skipped_in_digits.1 ' ' [] 5 3 4 2 true ⟨1, 2⟩ (by decide)⟩

/-- C5: for every nonnegative integer given by a nonempty digit string and
every alias of level L, parsing the span made of the digits followed by the
alias yields, absent overflow, exactly n times 1024 to the L times 8 bits
per second, with no rounding involved. -/
theorem C5_integer_span_exact (ds : List Char) (u : String) (L : ℕ)
    (hne : ds ≠ []) (hds : ∀ c ∈ ds, isDigitChar c)
    (hu : aliasLevel u = some L)
    (hn : digitsVal ds < 2 ^ 64)
    (hB : digitsVal ds * 1024 ^ L * 8 < 2 ^ 64 * 1000000000) :
    parse_binary_bandwidth (String.mk (ds ++ u.data)) =
      .ok (Bandwidth.ofBits (digitsVal ds * 1024 ^ L * 8)) := by
  obtain ⟨hL4, hund, huc⟩ := aliasLevel_facts hu
  have hpow : (1024 : ℕ) ^ L = 2 ^ (10 * L) := by
    rw [show (1024 : ℕ) = 2 ^ 10 by norm_num, ← pow_mul]
  rw [hpow] at hB ⊢
  show run (ds ++ u.data) 0 (.start true) ⟨0, 0⟩ = _
  have hsp : ds ++ u.data = spanChars ds none u ++ [] := by
    simp [spanChars, fracPart]
  rw [hsp, run_span ds none u [] 0 true ⟨0, 0⟩ hne hds (by intro fs h; cases h) huc hund,
    if_pos hn]
  simp only [Option.getD_none, fracFold, List.foldl_nil, run]
  rw [String.mk_data]
  rw [parse_binary_unit_eq _ _ hu hn (by norm_num) (Nat.zero_le _) (by decide)]
  have hzero : (0 * 2 ^ (10 * L) + 10 ^ 0 / 2) / 10 ^ 0 = 0 := by norm_num
  rw [hzero, Nat.add_zero]
  have htb0 : (⟨0, 0⟩ : Bandwidth).totalBits = 0 := rfl
  rw [htb0, Nat.zero_add, if_pos ⟨hB, hB⟩]

/-- Witness for C5: the span 4MiBps parses to 4 mebibytes per second. -/
theorem C5_witness :
    (['4'] : List Char) ≠ [] ∧ aliasLevel "MiBps" = some 2 ∧
    digitsVal ['4'] < 2 ^ 64 ∧ digitsVal ['4'] * 1024 ^ 2 * 8 < 2 ^ 64 * 1000000000 ∧
    parse_binary_bandwidth (String.mk (['4'] ++ "MiBps".data)) =
      .ok (Bandwidth.ofBits (digitsVal ['4'] * 1024 ^ 2 * 8)) :=
  ⟨by decide, by decide, by decide, by decide,
    C5_integer_span_exact ['4'] "MiBps" 2 (by decide) (by decide) (by decide) (by decide)
      (by decide)⟩

/-- The bits-per-second value of one rate-span, exactly as parse_binary_unit
computes it from the digit-loop accumulators of the span. -/
def spanBits (ds : List Char) (fr : Option (List Char)) (L : ℕ) : ℕ :=
  (digitsVal ds * 2 ^ (10 * L) +
    ((fracFold (0, 0) (fr.getD [])).1 * 2 ^ (10 * L) +
      10 ^ (fracFold (0, 0) (fr.getD [])).2 / 2) /
        10 ^ (fracFold (0, 0) (fr.getD [])).2) * 8

lemma frac_digits_of_getD {fr : Option (List Char)}
    (hfr : ∀ fs, fr = some fs → ∀ c ∈ fs, isDigitChar c) :
    ∀ c ∈ fr.getD [], isDigitChar c := by
  cases fr with
  | none => intro c hc; simp at hc
  | some fs => exact hfr fs rfl

/-- A whole span followed by the end of the input: the digits scan, the unit
resolves, and the span folds into the running total through the two real
overflow checks. -/
lemma run_span_end (ds : List Char) (fr : Option (List Char)) (u : String) (L : ℕ)
    (pos : ℕ) (b : Bool) (cur : Bandwidth)
    (hne : ds ≠ []) (hds : ∀ c ∈ ds, isDigitChar c)
    (hfr : ∀ fs, fr = some fs → ∀ c ∈ fs, isDigitChar c)
    (hu : aliasLevel u = some L) (hcur : cur.bps < 1000000000) :
    run (spanChars ds fr u ++ []) pos (.start b) cur =
      if digitsVal ds < 2 ^ 64 then
        (if spanBits ds fr L < 2 ^ 64 * 1000000000 ∧
            cur.totalBits + spanBits ds fr L < 2 ^ 64 * 1000000000 then
          .ok (Bandwidth.ofBits (cur.totalBits + spanBits ds fr L))
        else .error .NumberOverflow)
      else .error .NumberOverflow := by
  obtain ⟨hL4, hund, huc⟩ := aliasLevel_facts hu
  obtain ⟨hf1, hf2⟩ :=
    fracFold_inv (fr.getD []) (0, 0) (frac_digits_of_getD hfr) (by norm_num) (Nat.zero_le _)
  rw [run_span ds fr u [] pos b cur hne hds hfr huc hund]
  by_cases hn : digitsVal ds < 2 ^ 64
  · rw [if_pos hn, if_pos hn]
    simp only [run]
    rw [String.mk_data]
    rw [parse_binary_unit_eq _ _ hu hn hf1 hf2 hcur]
    rfl
  · rw [if_neg hn, if_neg hn]

/-- A whole span followed by a space and more input: the span folds into the
running total and scanning resumes in first-character mode on the rest. -/
lemma run_span_ws (ds : List Char) (fr : Option (List Char)) (u : String) (L : ℕ)
    (rest : List Char) (pos : ℕ) (b : Bool) (cur : Bandwidth)
    (hne : ds ≠ []) (hds : ∀ c ∈ ds, isDigitChar c)
    (hfr : ∀ fs, fr = some fs → ∀ c ∈ fs, isDigitChar c)
    (hu : aliasLevel u = some L) (hcur : cur.bps < 1000000000)
    (hn : digitsVal ds < 2 ^ 64)
    (hc1 : spanBits ds fr L < 2 ^ 64 * 1000000000)
    (hc2 : cur.totalBits + spanBits ds fr L < 2 ^ 64 * 1000000000) :
    run (spanChars ds fr u ++ (' ' :: rest)) pos (.start b) cur =
      run rest (pos + (spanChars ds fr u).length + 1) (.start false)
        (Bandwidth.ofBits (cur.totalBits + spanBits ds fr L)) := by
  obtain ⟨hL4, hund, huc⟩ := aliasLevel_facts hu
  obtain ⟨hf1, hf2⟩ :=
    fracFold_inv (fr.getD []) (0, 0) (frac_digits_of_getD hfr) (by norm_num) (Nat.zero_le _)
  rw [run_span ds fr u (' ' :: rest) pos b cur hne hds hfr huc hund, if_pos hn]
  have hws : rustWhitespace ' ' := by decide
  have hpbu : parse_binary_unit cur (digitsVal ds) (fracFold (0, 0) (fr.getD [])).1
      (fracFold (0, 0) (fr.getD [])).2 (pos + ds.length + (fracPart fr).length)
      (pos + (spanChars ds fr u).length) (String.mk u.data) =
      .ok (Bandwidth.ofBits (cur.totalBits + spanBits ds fr L)) := by
    rw [String.mk_data]
    rw [parse_binary_unit_eq _ _ hu hn hf1 hf2 hcur]
    rw [if_pos ⟨hc1, hc2⟩]
    rfl
  rw [run_step_uscan_ws_ok hws hpbu rest]
  rw [show utf8Len ' ' = 1 from rfl]

/-- Inversion of a successful single-span parse: the digits fit the
accumulator, the span bits pass the overflow checks, and the value is
exactly the span bits. -/
lemma span_parse_ok_inv (ds : List Char) (fr : Option (List Char)) (u : String) (L : ℕ)
    (v : Bandwidth)
    (hne : ds ≠ []) (hds : ∀ c ∈ ds, isDigitChar c)
    (hfr : ∀ fs, fr = some fs → ∀ c ∈ fs, isDigitChar c)
    (hu : aliasLevel u = some L)
    (hp : parse_binary_bandwidth (String.mk (spanChars ds fr u)) = .ok v) :
    digitsVal ds < 2 ^ 64 ∧ spanBits ds fr L < 2 ^ 64 * 1000000000 ∧
      v = Bandwidth.ofBits (spanBits ds fr L) := by
  have h1 : run (spanChars ds fr u ++ []) 0 (.start true) ⟨0, 0⟩ = .ok v := by
    rw [List.append_nil]
    exact hp
  rw [run_span_end ds fr u L 0 true ⟨0, 0⟩ hne hds hfr hu (by decide)] at h1
  have htb0 : (⟨0, 0⟩ : Bandwidth).totalBits = 0 := rfl
  rw [htb0] at h1
  split at h1
  · split at h1
    · next hcond =>
      injection h1 with hv
      rw [Nat.zero_add] at hv
      refine ⟨by assumption, hcond.1, hv.symm⟩
    · exact absurd h1 (by simp)
  · exact absurd h1 (by simp)

/-- C6: parsing is additive over concatenation. For any two rate-spans that
each parse successfully on their own, parsing their concatenation separated
by a space yields the magnitude obtained by adding the two results with the
magnitude checked addition, provided that sum does not overflow. -/
theorem C6_concatenation_additive
    (ds1 ds2 : List Char) (fr1 fr2 : Option (List Char)) (u1 u2 : String) (L1 L2 : ℕ)
    (v1 v2 w : Bandwidth)
    (h1ne : ds1 ≠ []) (h1d : ∀ c ∈ ds1, isDigitChar c)
    (h1f : ∀ fs, fr1 = some fs → ∀ c ∈ fs, isDigitChar c)
    (hu1 : aliasLevel u1 = some L1)
    (h2ne : ds2 ≠ []) (h2d : ∀ c ∈ ds2, isDigitChar c)
    (h2f : ∀ fs, fr2 = some fs → ∀ c ∈ fs, isDigitChar c)
    (hu2 : aliasLevel u2 = some L2)
    (hp1 : parse_binary_bandwidth (String.mk (spanChars ds1 fr1 u1)) = .ok v1)
    (hp2 : parse_binary_bandwidth (String.mk (spanChars ds2 fr2 u2)) = .ok v2)
    (hsum : v1.checkedAdd v2 = .ok w) :
    parse_binary_bandwidth
      (String.mk (spanChars ds1 fr1 u1 ++ ' ' :: spanChars ds2 fr2 u2)) = .ok w := by
  have htb0 : (⟨0, 0⟩ : Bandwidth).totalBits = 0 := rfl
  obtain ⟨hn1, hc1, hv1⟩ := span_parse_ok_inv ds1 fr1 u1 L1 v1 h1ne h1d h1f hu1 hp1
  obtain ⟨hn2, hc2, hv2⟩ := span_parse_ok_inv ds2 fr2 u2 L2 v2 h2ne h2d h2f hu2 hp2
  -- invert the checked sum
  have hb1 : v1.bps < 1000000000 := by
    rw [hv1]
    exact ofBits_bps_lt _
  have hb2 : v2.bps < 1000000000 := by
    rw [hv2]
    exact ofBits_bps_lt _
  rw [checkedAdd_eq hb1 hb2] at hsum
  have ht1 : v1.totalBits = spanBits ds1 fr1 L1 := by
    rw [hv1, ofBits_totalBits]
  have ht2 : v2.totalBits = spanBits ds2 fr2 L2 := by
    rw [hv2, ofBits_totalBits]
  split at hsum
  case isFalse => exact absurd hsum (by simp)
  case isTrue hs =>
  have hw := Except.ok.inj hsum
  -- the concatenation
  show run (spanChars ds1 fr1 u1 ++ (' ' :: spanChars ds2 fr2 u2)) 0 (.start true) ⟨0, 0⟩ =
    .ok w
  rw [run_span_ws ds1 fr1 u1 L1 (spanChars ds2 fr2 u2) 0 true ⟨0, 0⟩ h1ne h1d h1f hu1
    (by decide) hn1 hc1 (by rw [htb0, Nat.zero_add]; exact hc1)]
  have hcur1 : Bandwidth.ofBits ((⟨0, 0⟩ : Bandwidth).totalBits + spanBits ds1 fr1 L1) = v1 := by
    rw [htb0, Nat.zero_add, ← hv1]
  rw [hcur1]
  rw [show spanChars ds2 fr2 u2 = spanChars ds2 fr2 u2 ++ [] from (List.append_nil _).symm]
  rw [run_span_end ds2 fr2 u2 L2 _ false v1 h2ne h2d h2f hu2 hb1]
  have hcc : spanBits ds2 fr2 L2 < 2 ^ 64 * 1000000000 ∧
      v1.totalBits + spanBits ds2 fr2 L2 < 2 ^ 64 * 1000000000 := by
    refine ⟨hc2, ?_⟩
    rw [← ht2]
    exact hs
  rw [if_pos hn2, if_pos hcc, ← ht2, hw]

/-- Witness for C6: 1Bps and 2Bps parse on their own and their checked sum
is 24 bits per second; the concatenation parses to exactly that. -/
theorem C6_witness :
    parse_binary_bandwidth (String.mk (spanChars ['1'] none "Bps")) = .ok ⟨0, 8⟩ ∧
    parse_binary_bandwidth (String.mk (spanChars ['2'] none "Bps")) = .ok ⟨0, 16⟩ ∧
    Bandwidth.checkedAdd ⟨0, 8⟩ ⟨0, 16⟩ = .ok ⟨0, 24⟩ ∧
    parse_binary_bandwidth
      (String.mk (spanChars ['1'] none "Bps" ++ ' ' :: spanChars ['2'] none "Bps")) =
      .ok ⟨0, 24⟩ :=
  ⟨rfl, rfl, rfl,
    C6_concatenation_additive ['1'] ['2'] none none "Bps" "Bps" 0 0 ⟨0, 8⟩ ⟨0, 16⟩ ⟨0, 24⟩
      (by decide) (by decide) (by intro fs h; cases h) (by decide)
      (by decide) (by decide) (by intro fs h; cases h) (by decide)
      rfl rfl rfl⟩

end HumanBandwidth
